import Mathlib

/-!
Verification of the dps experiment-orchestration layer: a shallow embedding of
`dps/train.py` (the curriculum training loop, stage runner and early-stopping
hook), `dps/parallel/hyper.py` (hyper-parameter sampling) and
`dps/parallel/submit_job.py` (the `ParallelSession` distributed run loop),
together with proofs of the behavioural properties stated in the design
specification.

Machine floats only enter the source through order comparisons (`>`/`<` on
metric values), so metric values are embedded as integers; steps, patience and
retry counters are integers/naturals exactly as in the source.
-/

namespace DPS

/-! ### Early stopping (`EarlyStopHook` in dps/train.py)

The Python object holds `_best_stopping_criteria` (initially `None`),
`_best_step`, `_best_record` and `_early_stopped`.  `check` computes
`new_best` via `_check_trigger`, updates the best fields on a new best, then
sets `_early_stopped = _early_stopped or (step - _best_step > patience)`.
The record payload is irrelevant to control flow and is not modelled. -/

structure EarlyStopState where
  best_sc : Option Int
  best_step : Option Int
  early_stopped : Bool
deriving Repr, DecidableEq

/-- `EarlyStopHook.reset`: best value/step cleared, `early_stopped` false. -/
def esReset : EarlyStopState :=
  { best_sc := none, best_step := none, early_stopped := false }

/-- `EarlyStopHook._check_trigger`: `True` when no best has been recorded yet,
otherwise a strict comparison in the direction given by `maximize`. -/
def checkTrigger (maximize : Bool) (s : EarlyStopState) (sc : Int) : Bool :=
  match s.best_sc with
  | none => true
  | some b => if maximize then sc > b else sc < b

/-- `EarlyStopHook.check`: returns `(new_best, should_stop)` and the updated
hook state.  `_best_step` is always set before `step - _best_step` is read
(on the first call `new_best` is necessarily true), so the `getD 0` default
is never reached from a reachable state. -/
def esCheck (patience : Int) (maximize : Bool) (s : EarlyStopState) (sc step : Int) :
    (Bool × Bool) × EarlyStopState :=
  let new_best := checkTrigger maximize s sc
  let s1 := if new_best then { s with best_sc := some sc, best_step := some step } else s
  let stopped := s1.early_stopped || decide (step - s1.best_step.getD 0 > patience)
  ((new_best, stopped), { s1 with early_stopped := stopped })

/-- Folds `esCheck` over a list of `(metric, step)` pairs, returning the
results of every call in order and the final state. -/
def esRun (patience : Int) (maximize : Bool) (s : EarlyStopState) :
    List (Int × Int) → List (Bool × Bool) × EarlyStopState
  | [] => ([], s)
  | (sc, step) :: rest =>
    let res := esCheck patience maximize s sc step
    let rest' := esRun patience maximize res.2 rest
    (res.1 :: rest'.1, rest'.2)

/-- Strict improvement of a metric value over another, in the direction of
the maximize flag — the comparison `_check_trigger` performs once a best
value exists. -/
def better (maximize : Bool) (new old : Int) : Bool :=
  if maximize then new > old else new < old

/-- A sequence of checks at the consecutive steps `t, t+1, ..., t+m-1` with
metric values `w 0, w 1, ..., w (m-1)`: the shape of the calls `_run_stage`
makes when `check` fires on every step. -/
def flatChecks (w : Nat → Int) (t : Int) : Nat → List (Int × Int)
  | 0 => []
  | m + 1 => (w 0, t) :: flatChecks (fun j => w (j + 1)) (t + 1) m

/-! ### Stage runner (`TrainingLoop._run_stage` in dps/train.py)

The `while True` loop of `_run_stage`, modelled with its control-relevant
actions.  Logging, summary writers, checkpoint yields, side hooks and the
render hook have no effect on control flow or on the recorded stopping
reason and are omitted.  The exit conditions appear in source order:
`local_step >= max_steps` first, then `n_experiences >= max_experiences`,
then (on evaluation iterations) the early-stop check, then the threshold
check, and finally the `do_train` check at the bottom of the body. -/

structure StageConfig where
  max_steps : Nat
  max_experiences : Nat
  eval_step : Nat
  display_step : Nat
  threshold : Int
  patience : Int
  maximize_sc : Bool
  do_train : Bool

/-- The external updater, as consumed by `_run_stage`: `n_experiences t` is
`updater.n_experiences` at the top of iteration `t`, and `val t` is the
validation stopping-criteria value produced by `updater.evaluate` on
iteration `t`. -/
structure StageUpdater where
  n_experiences : Nat → Nat
  val : Nat → Int

inductive StageReason where
  | maxSteps
  | maxExperiences
  | earlyStopping
  | thresholdReached
  | trainingDisabled
deriving Repr, DecidableEq

structure StageResult where
  reason : StageReason
  steps : Nat
  threshold_reached : Bool
deriving Repr, DecidableEq

/-- One pass of the `while True` body of `_run_stage`, starting at
`local_step = t` with early-stop state `es` and the local variable
`threshold_reached = tr`; recurses with `local_step + 1` when no exit
condition fires. -/
def runStageLoop (C : StageConfig) (U : StageUpdater) (t : Nat) (es : EarlyStopState)
    (tr : Bool) : StageResult :=
  if C.max_steps ≤ t then ⟨.maxSteps, t, tr⟩
  else if C.max_experiences ≤ U.n_experiences t then ⟨.maxExperiences, t, tr⟩
  else
    let evaluate := t % C.eval_step == 0
    let display := t % C.display_step == 0
    if evaluate || display then
      let sc := U.val t
      let (r, es') := esCheck C.patience C.maximize_sc es sc (t : Int)
      if r.2 then ⟨.earlyStopping, t, tr⟩
      else
        let tr' := if C.maximize_sc then decide (sc > C.threshold) else decide (sc < C.threshold)
        if tr' then ⟨.thresholdReached, t, tr'⟩
        else if C.do_train then runStageLoop C U (t + 1) es' tr'
        else ⟨.trainingDisabled, t, tr'⟩
    else if C.do_train then runStageLoop C U (t + 1) es tr
    else ⟨.trainingDisabled, t, tr⟩
termination_by C.max_steps - t

/-- `_run_stage` entry: `local_step = 0`, local `threshold_reached = False`,
early-stop hook freshly reset (constructed at the top of `run_stage`). -/
def runStage (C : StageConfig) (U : StageUpdater) : StageResult :=
  runStageLoop C U 0 esReset false

/-! ### `TrainingLoop.run_stage` and the curriculum loop of `TrainingLoop._run`

`run_stage` wraps `_run_stage` in a `time_limit` block with a
`try/except KeyboardInterrupt`; the interrupt handler sets
`threshold_reached = False` and `reason = "User interrupt"` and does not
re-raise.  After the block the physical-memory delta is recorded and each
hook's `end_stage` runs; if the time limiter ran out the reason is replaced
by "Time limit exceeded" and, when `cfg.error_on_timeout` is set, an
exception is raised.  `time_limit` itself lives in `dps/utils` (absent from
the sources); its observable effect here is the `ran_out` flag, taken as a
parameter. -/

/-- How `_run_stage` ended from the point of view of `run_stage`: either it
returned normally with a result, or a `KeyboardInterrupt` reached the
`except` clause. -/
inductive InnerOutcome where
  | normal (r : StageResult)
  | interrupted
deriving Repr, DecidableEq

inductive OuterReason where
  | inner (r : StageReason)
  | userInterrupt
  | timeLimitExceeded
deriving Repr, DecidableEq

/-- The per-stage record that `run_stage` leaves behind: the stopping reason,
`self.threshold_reached`, and whether the cleanup actions ran (the
physical-memory delta record and the `end_stage` call of every hook). -/
structure StageRecord where
  reason : OuterReason
  threshold_reached : Bool
  memory_recorded : Bool
  hooks_ended : Bool
deriving Repr, DecidableEq

/-- `TrainingLoop.run_stage`: returns the stage record and whether an
exception escapes (only the `error_on_timeout` re-raise can). -/
def runStageOuter (outcome : InnerOutcome) (ran_out error_on_timeout : Bool) :
    StageRecord × Bool :=
  let (reason, tr) :=
    match outcome with
    | .normal r => (OuterReason.inner r.reason, r.threshold_reached)
    | .interrupted => (OuterReason.userInterrupt, false)
  let reason := if ran_out then OuterReason.timeLimitExceeded else reason
  (⟨reason, tr, true, true⟩, ran_out && error_on_timeout)

/-- The stage iteration of `TrainingLoop._run`, from stage index `i` with `n`
curriculum stages left.  `timeOk i` is the `self.time_remaining <= 1` guard
at the top of stage `i` (true when time remains); `outcomes i` abstracts what
running stage `i` does; `ran_out i` is stage `i`'s limiter flag.  After a
stage the curriculum continues only if `threshold_reached or
cfg.power_through` holds; an exception escaping `run_stage` propagates
(second component true). -/
def runCurriculum (outcomes : Nat → InnerOutcome) (timeOk : Nat → Bool)
    (ran_out : Nat → Bool) (power_through error_on_timeout : Bool) :
    Nat → Nat → List StageRecord × Bool
  | _, 0 => ([], false)
  | i, n + 1 =>
    if timeOk i then
      let (rec, raises) := runStageOuter (outcomes i) (ran_out i) error_on_timeout
      if raises then ([rec], true)
      else if rec.threshold_reached || power_through then
        let (rest, r) :=
          runCurriculum outcomes timeOk ran_out power_through error_on_timeout (i + 1) n
        (rec :: rest, r)
      else ([rec], false)
    else ([], false)

/-! ### Per-stage configuration overlay (`TrainingLoop._run`)

In `_run`, each loop iteration opens a fresh `ExitStack`, enters
`stage_config` (the stage's own override dict) as a context, runs the stage,
and the `ExitStack` closes — popping the override — before the next stage
begins.  The config-scope mechanics live in `dps/utils` (absent from the
sources).

Modelled from the spec: the global config `cfg` is a context-managed scope
stack — "pushed onto a scope stack for the duration of a stage
(context-managed), popped on stage exit", with lookups seeing "the layered
merge ... with later layers winning". -/

/-- A configuration layer: a partial key/value map. -/
def Overlay : Type := String → Option Int

/-- Modelled from the spec: a lookup through the scope stack (top layer
first, falling back to lower layers; the base config is the bottom). -/
def stackLookup (base : Overlay) : List Overlay → String → Option Int
  | [], k => base k
  | o :: rest, k => (o k).orElse fun _ => stackLookup base rest k

/-- The curriculum iteration of `_run`, restricted to its config-scope
behaviour: for each stage the override is pushed, the effective lookup
function for that stage is captured, and the override is popped when the
stage's `ExitStack` closes.  Returns the effective config of each stage. -/
def stageEffectiveConfigs (base : Overlay) (stack : List Overlay) :
    List Overlay → List (String → Option Int)
  | [] => []
  | sc :: rest =>
    let eff := stackLookup base (sc :: stack)
    eff :: stageEffectiveConfigs base stack rest

/-! ### Hyper-parameter sampling (dps/parallel/hyper.py)

A flattened distribution specification maps parameter names to entries.  The
source classifies each entry by attempting `list(v)` (enumerable domain),
falling back to a check for an `rvs` sampling method (continuous
distribution), and otherwise treating the value as a plain config value kept
in `other`.  Values are embedded as integers; `Config.flatten` (absent
`dps/utils`) is modelled by taking the specification already flat, iterated
in sorted-key order. -/

inductive Entry where
  | enum (vals : List Int)
  | cont
  | scalar (v : Int)
deriving Repr, DecidableEq

/-- A concrete configuration: an association list of key/value pairs. -/
abbrev Cfg : Type := List (String × Int)

/-- The per-key lists collected by `generate_all` / `nested_sample` from the
enumerable entries, in iteration order. -/
def enumLists (ds : List (String × Entry)) : List (List Int) :=
  ds.filterMap fun p => match p.2 with | .enum vs => some vs | _ => none

/-- The `sampled_keys` collected from the enumerable entries, in order. -/
def sampledKeys (ds : List (String × Entry)) : List String :=
  ds.filterMap fun p => match p.2 with | .enum _ => some p.1 | _ => none

/-- The `other` dict: entries that are neither enumerable nor continuous. -/
def otherEntries (ds : List (String × Entry)) : Cfg :=
  ds.filterMap fun p => match p.2 with | .scalar v => some (p.1, v) | _ => none

/-- The first continuous entry hit by the iteration, if any: at that point
`generate_all` raises. -/
def firstCont (ds : List (String × Entry)) : Option String :=
  ds.findSome? fun p => match p.2 with | .cont => some p.1 | _ => none

/-- `itertools.product`: all combinations, rightmost factor varying
fastest. -/
def cartProd : List (List Int) → List (List Int)
  | [] => [[]]
  | l :: ls => l.flatMap fun x => (cartProd ls).map fun p => x :: p

/-- Lexicographic comparison of equal-length integer tuples, as Python's
`sorted` uses on the tuples produced by `product`. -/
def lexLe : List Int → List Int → Bool
  | [], _ => true
  | _ :: _, [] => false
  | a :: as, b :: bs => if a < b then true else if b < a then false else lexLe as bs

/-- The same comparison as a decidable relation, in the form the sort
function takes. -/
def lexRel (a b : List Int) : Prop := lexLe a b = true

instance : DecidableRel lexRel := fun a b => by unfold lexRel; infer_instance

/-- Builds one output config of `generate_all`/`nested_sample`: a copy of
`other` with the sampled keys assigned the values of one combination
(`new[k] = p` for `k, p in zip(sampled_keys, pset)`; the sampled keys are
fresh in `other`, so assignment appends). -/
def mkConfig (other : Cfg) (ks : List String) (pset : List Int) : Cfg :=
  other ++ ks.zip pset

/-- `generate_all`: raises on the first continuous entry, otherwise returns
the configs for the sorted Cartesian product of the enumerable domains. -/
def generate_all (ds : List (String × Entry)) : Except String (List Cfg) :=
  match firstCont ds with
  | some k => .error k
  | none =>
    .ok ((List.insertionSort lexRel (cartProd (enumLists ds))).map
      (mkConfig (otherEntries ds) (sampledKeys ds)))

/-- `nested_sample`: draws `n_samples` values per sampled key — by random
choice with replacement for enumerable domains (`choice` is the index
oracle; a `ValueError` on an empty domain sends the entry to `other`), via
`rvs` for continuous ones (the `rvs` oracle) — zips the draws positionally
into `n_samples` tuples, sorts the tuples, and builds one config per tuple.
Key `j` of the oracles is the entry's position in `ds`. -/
def nested_sample (choice : Nat → Nat → Nat) (rvs : Nat → Nat → Int)
    (ds : List (String × Entry)) (n_samples : Nat) : List Cfg :=
  let sampled : List (String × List Int) :=
    (ds.enum).filterMap fun pj =>
      match pj.2.2 with
      | .enum vs =>
        if vs.isEmpty then none
        else some (pj.2.1, (List.range n_samples).map fun i =>
          vs.getD (choice pj.1 i % vs.length) 0)
      | .cont => some (pj.2.1, (List.range n_samples).map fun i => rvs pj.1 i)
      | .scalar _ => none
  let other : Cfg :=
    (ds.enum).filterMap fun pj =>
      match pj.2.2 with
      | .enum vs => if vs.isEmpty then some (pj.2.1, 0) else none
      | .cont => none
      | .scalar v => some (pj.2.1, v)
  let tuples : List (List Int) :=
    if sampled.isEmpty then []
    else (List.range n_samples).map fun i => sampled.map fun kv => kv.2.getD i 0
  (List.insertionSort lexRel tuples).map (mkConfig other (sampled.map Prod.fst))

/-- A distribution specification as accepted by `sample_configs`: either a
dict of distributions or a literal list of pre-built configs. -/
inductive DistSpec where
  | dict (ds : List (String × Entry))
  | lit (cs : List Cfg)

/-- Python dict assignment `c[k] = v`: overwrite in place if present,
append otherwise. -/
def setKey (c : Cfg) (k : String) (v : Int) : Cfg :=
  if c.any fun p => p.1 == k then c.map fun p => if p.1 == k then (k, v) else p
  else c ++ [(k, v)]

/-- The repeat fan-out loop of `sample_configs`: each sample `i` receives
`idx = i`, and for each `r < n_repeats` a copy with `repeat = r` and a fresh
seed (the `seedOf` oracle stands for `gen_seed`). -/
def fanout (seedOf : Nat → Nat → Int) (samples : List Cfg) (n_repeats : Nat) : List Cfg :=
  (samples.enum).flatMap fun si =>
    (List.range n_repeats).map fun (r : Nat) =>
      setKey (setKey (setKey si.2 "idx" (si.1 : Int)) "repeat" (r : Int)) "seed" (seedOf si.1 r)

/-- `sample_configs`: a literal list is (optionally permuted and truncated
when `n_samples` is truthy, the `permute` oracle standing for
`np.random.permutation`) fanned out directly; a dict goes through
`generate_all` when `n_samples` is falsy (0 here, `None`/`0` in Python) and
through `nested_sample` otherwise; the result is fanned out over
`n_repeats`. -/
def sample_configs (permute : List Cfg → List Cfg) (choice : Nat → Nat → Nat)
    (rvs : Nat → Nat → Int) (seedOf : Nat → Nat → Int)
    (distributions : DistSpec) (n_repeats : Nat) (n_samples : Nat) :
    Except String (List Cfg) :=
  match distributions with
  | .lit ds =>
    let samples := if n_samples ≠ 0 then (permute ds).take n_samples else ds
    .ok (fanout seedOf samples n_repeats)
  | .dict d =>
    if n_samples = 0 then
      (generate_all d).map fun s => fanout seedOf s n_repeats
    else
      .ok (fanout seedOf (nested_sample choice rvs d n_samples) n_repeats)

/-! ### Parallel execution session (`ParallelSession.run` in
dps/parallel/submit_job.py)

The controller loop: while incomplete, non-dead operations remain, recruit
hosts, run one time-boxed distributed step on the first `n_procs` remaining
indices, then checkpoint (fetch every host's partial results archive and
merge it — `unzip -nuq`, a union in which already-present results are kept —
into the cumulative `results.zip`).  After the step the merged archive is
reloaded; every index of the step that is still incomplete gets its failure
counter incremented and moves to `dead_jobs` once that counter exceeds
`n_retries`; dead indices are filtered out of the remaining set.  Only after
the loop exits are the two final commands run: `cp -f input.zip
input.zip.bk` and `cp -f results.zip input.zip`.

The job store (`dps/parallel/base.py`, absent from the sources) is modelled
from the spec: `ready_incomplete_ops` of the merged archive is the set of
operations without a recorded successful output, and the per-step merge is a
union under which completion is monotone.  Whether the single invocation of
operation `j` during a step succeeds is abstracted by an oracle
`env j a` — true when operation `j` completes on its `a`-th attempt.
`recruit_hosts` runs before every step; recruitment is taken as
deterministic (the usable host pool does not change mid-run), so the
processor budget `n_procs = ppn * len(hosts)` is a constant parameter. -/

/-- The externally visible actions of `ParallelSession.run`, in order. -/
inductive Event where
  | step (i : Nat) (indices : List Nat)
  | checkpointMerge (i : Nat)
  | mkBackup
  | overwriteInput
deriving Repr, DecidableEq

structure SessState where
  completed : Nat → Bool
  attempts : Nat → Nat
  n_failures : Nat → Nat
  dead_jobs : Nat → Bool
  remaining : List Nat

/-- The initial state of `ParallelSession.run`: no completions, no failures,
no dead jobs; `remaining` is the index list of the ready incomplete
operations of the input archive. -/
def sessInit (allOps : List Nat) : SessState :=
  { completed := fun _ => false, attempts := fun _ => 0, n_failures := fun _ => 0,
    dead_jobs := fun _ => false, remaining := allOps }

/-- `indices_for_step = subjobs_remaining[:self.n_procs]`. -/
def stepIndices (n_procs : Nat) (s : SessState) : List Nat :=
  s.remaining.take n_procs

/-- Completion after the step's distributed map plus the checkpoint merge:
an operation stays completed once completed (the merge is a union) and
becomes completed when it ran in this step and its invocation succeeded. -/
def stepCompleted (env : Nat → Nat → Bool) (n_procs : Nat) (s : SessState) (j : Nat) : Bool :=
  s.completed j || (decide (j ∈ stepIndices n_procs s) && env j (s.attempts j))

/-- `ready_incomplete_ops` of the merged archive after the step. -/
def stepIncomplete (env : Nat → Nat → Bool) (n_procs : Nat) (allOps : List Nat)
    (s : SessState) : List Nat :=
  allOps.filter fun j => !stepCompleted env n_procs s j

/-- The failure counters after the step: `n_failures[j] += 1` for every `j`
of the step that is still incomplete. -/
def stepFailures (env : Nat → Nat → Bool) (n_procs : Nat) (allOps : List Nat)
    (s : SessState) (j : Nat) : Nat :=
  if j ∈ stepIndices n_procs s ∧ j ∈ stepIncomplete env n_procs allOps s then
    s.n_failures j + 1
  else s.n_failures j

/-- The dead set after the step: `dead_jobs.add(j)` for every `j` of the
step that is still incomplete and whose failure counter now exceeds
`n_retries`. -/
def stepDead (env : Nat → Nat → Bool) (n_procs n_retries : Nat) (allOps : List Nat)
    (s : SessState) (j : Nat) : Bool :=
  s.dead_jobs j ||
    (decide (j ∈ stepIndices n_procs s) &&
      decide (j ∈ stepIncomplete env n_procs allOps s) &&
      decide (stepFailures env n_procs allOps s j > n_retries))

/-- One iteration of the `while subjobs_remaining` loop (minus the emitted
events): run the step on `remaining[:n_procs]`, merge results, reload the
incomplete set from the merged archive, do the retry/dead-job accounting,
and filter dead indices out of the remaining set. -/
def doStep (env : Nat → Nat → Bool) (n_procs n_retries : Nat) (allOps : List Nat)
    (s : SessState) : SessState :=
  { completed := stepCompleted env n_procs s,
    attempts := fun j => if j ∈ stepIndices n_procs s then s.attempts j + 1 else s.attempts j,
    n_failures := stepFailures env n_procs allOps s,
    dead_jobs := stepDead env n_procs n_retries allOps s,
    remaining := (stepIncomplete env n_procs allOps s).filter
      fun j => !stepDead env n_procs n_retries allOps s j }

/-- The bookkeeping invariant of the run loop: an index is dead exactly when
its failure counter exceeds `n_retries`, and the remaining set holds only
live, incomplete indices of the job. -/
def SessWf (n_retries : Nat) (allOps : List Nat) (s : SessState) : Prop :=
  (∀ j, s.dead_jobs j = true ↔ s.n_failures j > n_retries) ∧
  (∀ j ∈ s.remaining, s.dead_jobs j = false ∧ s.completed j = false ∧ j ∈ allOps)

/-- The retry bookkeeping for one operation `j` that fails its first
`n_retries` attempts and succeeds on the next: while incomplete, its failure
counter equals its attempt counter and stays within `n_retries`; once
complete its failure counter is frozen at most `n_retries`. -/
def RetryInv (n_retries : Nat) (j : Nat) (s : SessState) : Prop :=
  (s.completed j = false ∧ s.attempts j ≤ n_retries ∧ s.n_failures j = s.attempts j) ∨
  (s.completed j = true ∧ s.n_failures j ≤ n_retries)

/-- The `while subjobs_remaining` loop from step index `i`, emitting the
step/checkpoint events.  The source loop has no bound of its own; `fuel`
bounds the modelled recursion and `none` is returned if it is exhausted
before the remaining set empties. -/
def sessLoop (env : Nat → Nat → Bool) (n_procs n_retries : Nat) (allOps : List Nat) :
    Nat → SessState → Nat → Option (SessState × List Event)
  | 0, s, _ => if s.remaining.isEmpty then some (s, []) else none
  | fuel + 1, s, i =>
    if s.remaining.isEmpty then some (s, [])
    else
      match sessLoop env n_procs n_retries allOps fuel
          (doStep env n_procs n_retries allOps s) (i + 1) with
      | none => none
      | some (sF, evs) =>
        some (sF, Event.step i (s.remaining.take n_procs) :: Event.checkpointMerge i :: evs)

/-- `ParallelSession.run` (with `dry_run` false): the loop from step 0
followed by the two final copy commands, which back up the input archive and
overwrite it with the merged results. -/
def sessRun (env : Nat → Nat → Bool) (n_procs n_retries : Nat) (allOps : List Nat)
    (fuel : Nat) : Option (SessState × List Event) :=
  match sessLoop env n_procs n_retries allOps fuel (sessInit allOps) 0 with
  | none => none
  | some (s, evs) => some (s, evs ++ [Event.mkBackup, Event.overwriteInput])

/-- The trace of events of a completed `ParallelSession.run`. -/
def sessTrace (env : Nat → Nat → Bool) (n_procs n_retries : Nat) (allOps : List Nat)
    (fuel : Nat) : Option (List Event) :=
  (sessRun env n_procs n_retries allOps fuel).map Prod.snd

/-- The state after `fuel` iterations of the loop (the loop may still be
unfinished), for stating invariants at every point of a run. -/
def sessStates (env : Nat → Nat → Bool) (n_procs n_retries : Nat) (allOps : List Nat) :
    Nat → SessState
  | 0 => sessInit allOps
  | fuel + 1 =>
    let s := sessStates env n_procs n_retries allOps fuel
    if s.remaining.isEmpty then s else doStep env n_procs n_retries allOps s

/-! ### `training_loop` (dps/train.py)

`stepped_training_loop(exp_name, start_time)` constructs
`TrainingLoop(exp_name, start_time)` and yields from its `run` method;
`training_loop(exp_name='', start_time=None)` returns
`list(stepped_training_loop())[-1]` — note the call with no arguments.
`TrainingLoop.run` itself is driven by the global config and the ML layer;
it is abstracted as a function `run` from the constructor arguments to the
list of yielded snapshots. -/

/-- `stepped_training_loop`: builds the loop object from its two arguments
and yields everything `run` yields. -/
def stepped_training_loop {Summary : Type} (run : String → Option Int → List Summary)
    (exp_name : String) (start_time : Option Int) : List Summary :=
  run exp_name start_time

/-- `training_loop`: `list(stepped_training_loop())[-1]`, the inner call made
with no arguments regardless of `exp_name` and `start_time` (`none` models a
`[-1]` indexing error on an empty yield list). -/
def training_loop {Summary : Type} (run : String → Option Int → List Summary)
    (_exp_name : String := "") (_start_time : Option Int := none) : Option Summary :=
  (stepped_training_loop run "" none).getLast?

/-! ### Concrete instances used by the witnesses and counterexamples -/

/-- Concrete inputs for the C4 witness: base `{lr ↦ 1}`, curriculum
`[{T ↦ 2}, {T ↦ 4}]` (the spec's concrete scenario, with `lr` and the stage
values as integers). -/
def c4Base : Overlay := fun k => if k = "lr" then some 1 else none

def c4Curriculum : List Overlay :=
  [fun k => if k = "T" then some 2 else none,
   fun k => if k = "T" then some 4 else none]

/-- Concrete curriculum outcomes for the C6 counterexample: stage 0 is
interrupted, stage 1 (if it runs) ends normally with its threshold
reached. -/
def c6Outcomes : Nat → InnerOutcome := fun i =>
  if i = 0 then .interrupted else .normal ⟨.thresholdReached, 3, true⟩

/-- Concrete distribution spec for the C7 witness: two enumerable domains of
sizes 2 and 3 plus one plain value. -/
def c7Spec : List (String × Entry) :=
  [("a", Entry.enum [1, 2]), ("b", Entry.scalar 5), ("c", Entry.enum [3, 4, 5])]

/-- The spec's concrete C5 scenario: `max_steps = 5`, a maximized metric
that first exceeds the threshold at step 10, evaluation on every step. -/
def c5Cfg : StageConfig :=
  { max_steps := 5, max_experiences := 1000, eval_step := 1, display_step := 100,
    threshold := 10, patience := 10, maximize_sc := true, do_train := true }

def c5Upd : StageUpdater :=
  { n_experiences := fun t => t, val := fun t => if 10 ≤ t then 11 else 0 }

/-- The environment for the C2 witness: operation 0 fails every attempt,
operation 1 fails its first attempt and succeeds on its second. -/
def c2Env : Nat → Nat → Bool := fun j a => j == 1 && decide (1 ≤ a)

/-- The durability property claimed for the checkpoint phase: between every
checkpoint `k` and the following step `k + 1` of the trace, the input
archive is overwritten with the merged results. -/
def DurablePerStep (tr : List Event) : Prop :=
  ∀ k p₁ p₂ idx, tr.get? p₁ = some (Event.checkpointMerge k) →
    tr.get? p₂ = some (Event.step (k + 1) idx) →
    ∃ p, p₁ < p ∧ p < p₂ ∧ tr.get? p = some Event.overwriteInput

/-- The environment for the C1 counterexample and witness: the single
operation fails its first attempt and succeeds on its second, giving a
two-step run. -/
def c1Env : Nat → Nat → Bool := fun _ a => decide (1 ≤ a)

/-! ## Theorems -/

/-- C9: `training_loop(exp_name, start_time)` ignores both of its arguments —
it runs `stepped_training_loop()` with the default empty experiment name and
no start time and returns only the final yielded summary, so its result
equals `training_loop()` called with no arguments. -/
theorem training_loop_ignores_arguments {Summary : Type}
    (run : String → Option Int → List Summary) (exp_name : String)
    (start_time : Option Int) :
    training_loop run exp_name start_time = training_loop run "" none ∧
    training_loop run exp_name start_time
      = (stepped_training_loop run "" none).getLast? :=
  ⟨rfl, rfl⟩

/-- C10: immediately after reset, the first `EarlyStopHook.check` call
returns `new_best = True` for every metric value and both settings of the
maximize flag (the best-so-far value is `None`), and on that same call
`should_stop` is true exactly when the patience is negative. -/
theorem esCheck_first_call_new_best (patience : Int) (maximize : Bool)
    (sc step : Int) :
    (esCheck patience maximize esReset sc step).1.1 = true ∧
    ((esCheck patience maximize esReset sc step).1.2 = true ↔ patience < 0) := by
  refine ⟨rfl, ?_⟩
  simp [esCheck, esReset, checkTrigger]

/-- Helper for C4: the config stack simulation of `_run` produces one
effective config per curriculum stage. -/
theorem stageEffectiveConfigs_length (base : Overlay) (stack : List Overlay)
    (curriculum : List Overlay) :
    (stageEffectiveConfigs base stack curriculum).length = curriculum.length := by
  induction curriculum with
  | nil => rfl
  | cons sc rest ih => simpa [stageEffectiveConfigs] using ih

/-- C4: while stage `i` runs, the configuration in effect is the base config
overlaid with `curriculum[i]` only — every key resolves to stage `i`'s own
override when present and to the base value otherwise, and the overrides of
the earlier stages (already popped) do not appear. -/
theorem stage_config_overlay_isolated (base : Overlay) (curriculum : List Overlay)
    (i : Nat) (h : i < curriculum.length) (k : String) :
    ((stageEffectiveConfigs base [] curriculum).getD i (stackLookup base [])) k
      = ((curriculum.getD i fun _ => none) k).orElse (fun _ => base k) := by
  induction curriculum generalizing i with
  | nil => exact absurd h (by simp)
  | cons sc rest ih =>
    cases i with
    | zero =>
      simp only [stageEffectiveConfigs, List.getD_cons_zero]
      rfl
    | succ n =>
      simp only [stageEffectiveConfigs, List.getD_cons_succ]
      exact ih n (by simpa using h)

/-- Witness for C4: in the two-stage scenario, stage 1 sees `T = 4` and the
base `lr`, i.e. stage 0's `T` override does not leak into stage 1. -/
theorem stage_config_overlay_isolated_witness :
    (1 < c4Curriculum.length ∧
      ((stageEffectiveConfigs c4Base [] c4Curriculum).getD 1 (stackLookup c4Base [])) "T"
        = ((c4Curriculum.getD 1 fun _ => none) "T").orElse (fun _ => c4Base "T")) ∧
    ((stageEffectiveConfigs c4Base [] c4Curriculum).getD 1 (stackLookup c4Base [])) "T"
        = some 4 ∧
    ((stageEffectiveConfigs c4Base [] c4Curriculum).getD 1 (stackLookup c4Base [])) "lr"
        = some 1 := by
  refine ⟨⟨by decide, stage_config_overlay_isolated c4Base c4Curriculum 1 (by decide) "T"⟩, rfl, rfl⟩

/-- C6 counterexample: with `power_through = True` (as set, e.g., by this
repository's own test configuration), a `KeyboardInterrupt` in stage 0 is
swallowed by `run_stage`'s `except` clause — nothing propagates (second
component false) — and stage 1 still runs, so the rest of the curriculum
does not stop. -/
theorem interrupt_not_propagated_counterexample :
    runCurriculum c6Outcomes (fun _ => true) (fun _ => false) true false 0 2
      = ([⟨.userInterrupt, false, true, true⟩,
          ⟨.inner .thresholdReached, true, true, true⟩], false) := by
  decide

/-- C6 (amended): a `KeyboardInterrupt` during a stage is caught by
`run_stage`, which records the stopping reason "User interrupt" and still
runs the cleanup (physical-memory delta recorded, every hook's `end_stage`
invoked); the exception is not re-raised, and the rest of the curriculum is
skipped only through the failed-threshold check, i.e. exactly when
`power_through` is false. -/
theorem interrupt_reason_cleanup_and_halt (outcomes : Nat → InnerOutcome)
    (timeOk ran_out : Nat → Bool) (error_on_timeout : Bool) (i n : Nat)
    (hint : outcomes i = .interrupted) (hro : ran_out i = false)
    (hto : timeOk i = true) :
    runStageOuter (outcomes i) (ran_out i) error_on_timeout
      = (⟨.userInterrupt, false, true, true⟩, false) ∧
    runCurriculum outcomes timeOk ran_out false error_on_timeout i (n + 1)
      = ([⟨.userInterrupt, false, true, true⟩], false) := by
  have h1 : runStageOuter (outcomes i) (ran_out i) error_on_timeout
      = (⟨.userInterrupt, false, true, true⟩, false) := by
    rw [hint, hro]; rfl
  refine ⟨h1, ?_⟩
  simp only [runCurriculum, hto, if_true, h1]
  rfl

/-- Witness for C6 (amended), at the concrete two-stage scenario with
`power_through = False`: the interrupted stage 0 is the only stage that
runs. -/
theorem interrupt_reason_cleanup_and_halt_witness :
    (c6Outcomes 0 = .interrupted ∧ (fun (_ : Nat) => false) 0 = false ∧
      (fun (_ : Nat) => true) 0 = true) ∧
    runCurriculum c6Outcomes (fun _ => true) (fun _ => false) false false 0 2
      = ([⟨.userInterrupt, false, true, true⟩], false) :=
  ⟨⟨rfl, rfl, rfl⟩,
    (interrupt_reason_cleanup_and_halt c6Outcomes (fun _ => true) (fun _ => false)
      false 0 1 rfl rfl rfl).2⟩

/-! ### Helper lemmas about the Cartesian product used by `generate_all` -/

theorem cartProd_length (ls : List (List Int)) :
    (cartProd ls).length = (ls.map List.length).prod := by
  induction ls with
  | nil => rfl
  | cons l ls ih =>
    simp [cartProd, List.length_flatMap, ih, Function.comp_def,
      List.map_const', List.sum_replicate, smul_eq_mul, Nat.mul_comm]

theorem cartProd_mem_length (ls : List (List Int)) :
    ∀ p ∈ cartProd ls, p.length = ls.length := by
  induction ls with
  | nil => intro p hp; simp [cartProd] at hp; simp [hp]
  | cons l ls ih =>
    intro p hp
    simp only [cartProd, List.mem_flatMap, List.mem_map] at hp
    obtain ⟨x, _, q, hq, rfl⟩ := hp
    simp [ih q hq]

theorem cartProd_nodup (ls : List (List Int)) (h : ∀ l ∈ ls, l.Nodup) :
    (cartProd ls).Nodup := by
  induction ls with
  | nil => simp [cartProd]
  | cons l ls ih =>
    rw [cartProd, List.nodup_flatMap]
    have hl : l.Nodup := h l (by simp)
    have hcp : (cartProd ls).Nodup := ih fun x hx => h x (by simp [hx])
    refine ⟨fun x _ => hcp.map fun a b hab => by injection hab, ?_⟩
    refine List.Pairwise.imp ?_ hl
    intro a b hab
    intro p hpa hpb
    simp only [List.mem_map] at hpa hpb
    obtain ⟨qa, _, rfl⟩ := hpa
    obtain ⟨qb, _, h2⟩ := hpb
    exact hab (by injection h2.symm)

theorem zip_right_injective (ks : List String) :
    ∀ p q : List Int, p.length = ks.length → q.length = ks.length →
      ks.zip p = ks.zip q → p = q := by
  induction ks with
  | nil =>
    intro p q hp hq _
    simp only [List.length_nil, List.length_eq_zero] at hp hq
    rw [hp, hq]
  | cons k ks ih =>
    intro p q hp hq hz
    cases p with
    | nil => simp at hp
    | cons a p' =>
      cases q with
      | nil => simp at hq
      | cons b q' =>
        simp only [List.zip_cons_cons, List.cons.injEq, Prod.mk.injEq] at hz
        simp only [List.length_cons, Nat.succ.injEq] at hp hq
        rw [hz.1.2, ih p' q' hp hq hz.2]

theorem sampledKeys_length_eq (ds : List (String × Entry)) :
    (sampledKeys ds).length = (enumLists ds).length := by
  induction ds with
  | nil => rfl
  | cons p rest ih =>
    obtain ⟨k, e⟩ := p
    cases e <;> simpa [sampledKeys, enumLists] using ih

theorem firstCont_eq_none_iff (ds : List (String × Entry)) :
    firstCont ds = none ↔ ∀ p ∈ ds, p.2 ≠ Entry.cont := by
  induction ds with
  | nil => simp [firstCont]
  | cons p rest ih =>
    obtain ⟨k, e⟩ := p
    cases e <;> simp [firstCont, List.findSome?_cons] <;>
      simpa [firstCont] using ih

/-- C7: `generate_all` raises exactly when some distribution entry is
continuous; otherwise it returns the full Cartesian product of the
enumerable domains — `n1 * n2 * ... * nk` configs, with no duplicates when
the domain values are distinct — each config being the non-enumerable
entries (`other`) overridden by one parameter combination. -/
theorem generate_all_cartesian (ds : List (String × Entry))
    (hdist : ∀ vs ∈ enumLists ds, vs.Nodup) :
    (firstCont ds = none ↔ ∀ p ∈ ds, p.2 ≠ Entry.cont) ∧
    (∀ k, firstCont ds = some k → generate_all ds = .error k) ∧
    (firstCont ds = none →
      ∃ cs, generate_all ds = .ok cs ∧
        cs.length = ((enumLists ds).map List.length).prod ∧
        cs.Nodup ∧
        ∀ c ∈ cs, ∃ pset ∈ cartProd (enumLists ds),
          c = mkConfig (otherEntries ds) (sampledKeys ds) pset) := by
  refine ⟨firstCont_eq_none_iff ds, ?_, ?_⟩
  · intro k hk
    simp [generate_all, hk]
  · intro hnone
    have hperm := List.perm_insertionSort lexRel (cartProd (enumLists ds))
    refine ⟨(List.insertionSort lexRel (cartProd (enumLists ds))).map
        (mkConfig (otherEntries ds) (sampledKeys ds)),
      by simp [generate_all, hnone], ?_, ?_, ?_⟩
    · simp [List.length_map, hperm.length_eq, cartProd_length]
    · have hnd : (List.insertionSort lexRel (cartProd (enumLists ds))).Nodup :=
        hperm.nodup_iff.mpr (cartProd_nodup _ hdist)
      refine hnd.map_on ?_
      intro p hp q hq hpq
      have hp' := cartProd_mem_length _ p (hperm.mem_iff.mp hp)
      have hq' := cartProd_mem_length _ q (hperm.mem_iff.mp hq)
      have hz : (sampledKeys ds).zip p = (sampledKeys ds).zip q := by
        have := hpq
        unfold mkConfig at this
        exact List.append_cancel_left this
      exact zip_right_injective (sampledKeys ds) p q
        (by rw [hp', sampledKeys_length_eq]) (by rw [hq', sampledKeys_length_eq]) hz
    · intro c hc
      simp only [List.mem_map] at hc
      obtain ⟨pset, hpset, rfl⟩ := hc
      exact ⟨pset, hperm.mem_iff.mp hpset, rfl⟩

/-- Witness for C7 at `c7Spec`: six distinct configs, the full 2×3 grid. -/
theorem generate_all_cartesian_witness :
    (∀ vs ∈ enumLists c7Spec, vs.Nodup) ∧
    ((firstCont c7Spec = none ↔ ∀ p ∈ c7Spec, p.2 ≠ Entry.cont) ∧
    (∀ k, firstCont c7Spec = some k → generate_all c7Spec = .error k) ∧
    (firstCont c7Spec = none →
      ∃ cs, generate_all c7Spec = .ok cs ∧
        cs.length = ((enumLists c7Spec).map List.length).prod ∧
        cs.Nodup ∧
        ∀ c ∈ cs, ∃ pset ∈ cartProd (enumLists c7Spec),
          c = mkConfig (otherEntries c7Spec) (sampledKeys c7Spec) pset)) :=
  ⟨by decide, generate_all_cartesian c7Spec (by decide)⟩

/-! ### Helper lemmas about the repeat fan-out of `sample_configs` -/

theorem fanout_zero_repeats (seedOf : Nat → Nat → Int) (samples : List Cfg) :
    fanout seedOf samples 0 = [] := by
  simp [fanout]

theorem fanout_length (seedOf : Nat → Nat → Int) (samples : List Cfg) (n : Nat) :
    (fanout seedOf samples n).length = samples.length * n := by
  simp [fanout, List.length_flatMap, Function.comp_def, List.map_const',
    List.sum_replicate, smul_eq_mul, List.enum_length]

theorem generate_all_ok (ds : List (String × Entry)) (hnone : firstCont ds = none) :
    generate_all ds = .ok ((List.insertionSort lexRel (cartProd (enumLists ds))).map
      (mkConfig (otherEntries ds) (sampledKeys ds))) := by
  simp [generate_all, hnone]

/-- C8 counterexample: with `n_samples = 0` the dict branch of
`sample_configs` performs exhaustive generation rather than returning an
empty list — a single enumerable domain of size 2 with one repeat yields two
configs — and when the dict holds a continuous entry it raises even with
`n_repeats = 0`. -/
theorem sample_configs_zero_counterexample :
    ¬ (sample_configs id (fun _ _ => 0) (fun _ _ => 0) (fun _ _ => 0)
        (DistSpec.dict [("a", Entry.enum [1, 2])]) 1 0 = Except.ok []) ∧
    sample_configs id (fun _ _ => 0) (fun _ _ => 0) (fun _ _ => 0)
        (DistSpec.dict [("a", Entry.cont)]) 0 0 = Except.error "a" := by
  constructor
  · intro h
    have hL : sample_configs id (fun _ _ => 0) (fun _ _ => 0) (fun _ _ => 0)
        (DistSpec.dict [("a", Entry.enum [1, 2])]) 1 0
        = Except.ok [[("a", 1), ("idx", 0), ("repeat", 0), ("seed", 0)],
                     [("a", 2), ("idx", 1), ("repeat", 0), ("seed", 0)]] := rfl
    rw [h] at hL
    injection hL with hL
    exact absurd hL (by decide)
  · rfl

/-- C8 (amended): `sample_configs` returns an empty list when `n_repeats` is
zero, provided the branch taken does not itself raise — i.e. except when
`n_samples` is falsy and the distribution dict holds a continuous entry, in
which case `generate_all` raises.  `n_samples = 0` alone does not give an
empty list: it selects exhaustive generation, producing the full grid fanned
out `n_repeats` times. -/
theorem sample_configs_zero_edge (permute : List Cfg → List Cfg)
    (choice : Nat → Nat → Nat) (rvs : Nat → Nat → Int) (seedOf : Nat → Nat → Int)
    (spec : DistSpec) (n_samples : Nat)
    (hsafe : ∀ d, spec = .dict d → n_samples = 0 → firstCont d = none) :
    sample_configs permute choice rvs seedOf spec 0 n_samples = .ok [] ∧
    (∀ d, spec = .dict d → firstCont d = none → ∀ n_repeats,
      ∃ cs, sample_configs permute choice rvs seedOf spec n_repeats 0 = .ok cs ∧
        cs.length = ((enumLists d).map List.length).prod * n_repeats) := by
  constructor
  · cases spec with
    | lit ds => simp [sample_configs, fanout_zero_repeats]
    | dict d =>
      by_cases hs : n_samples = 0
      · subst hs
        rw [sample_configs, if_pos rfl, generate_all_ok d (hsafe d rfl rfl)]
        simp [Except.map, fanout_zero_repeats]
      · simp [sample_configs, hs, fanout_zero_repeats]
  · intro d hspec hnone n_repeats
    subst hspec
    rw [sample_configs, if_pos rfl, generate_all_ok d hnone]
    refine ⟨_, rfl, ?_⟩
    rw [fanout_length, List.length_map, (List.perm_insertionSort _ _).length_eq,
      cartProd_length]

/-- Witness for C8 (amended) at a concrete dict with one enumerable domain
of size 2: zero repeats yields the empty list, and with `n_samples = 0` and
3 repeats the result has `2 * 3` configs. -/
theorem sample_configs_zero_edge_witness :
    (∀ d, DistSpec.dict [("a", Entry.enum [1, 2])] = DistSpec.dict d → (7 : Nat) = 0 →
      firstCont d = none) ∧
    sample_configs id (fun _ _ => 0) (fun _ _ => 0) (fun _ _ => 0)
      (DistSpec.dict [("a", Entry.enum [1, 2])]) 0 7 = .ok [] ∧
    (∀ d, DistSpec.dict [("a", Entry.enum [1, 2])] = DistSpec.dict d →
      firstCont d = none → ∀ n_repeats,
      ∃ cs, sample_configs id (fun _ _ => 0) (fun _ _ => 0) (fun _ _ => 0)
          (DistSpec.dict [("a", Entry.enum [1, 2])]) n_repeats 0 = .ok cs ∧
        cs.length = ((enumLists d).map List.length).prod * n_repeats) := by
  have h := sample_configs_zero_edge id (fun _ _ => 0) (fun _ _ => 0) (fun _ _ => 0)
    (DistSpec.dict [("a", Entry.enum [1, 2])]) 7
    (fun d _ h7 => absurd h7 (by decide))
  exact ⟨fun d _ h7 => absurd h7 (by decide), h.1, h.2⟩

/-! ### Helper lemmas for the early-stopping properties -/

theorem esRun_improving_no_stop (patience : Int) (hp : 0 ≤ patience) (maximize : Bool) :
    ∀ (cs : List (Int × Int)) (s : EarlyStopState),
      s.early_stopped = false →
      (s.best_sc = none ∨ ∃ v, s.best_sc = some v ∧ ∀ c ∈ cs, better maximize c.1 v = true) →
      List.Pairwise (fun a b => better maximize b.1 a.1 = true) cs →
      ∀ r ∈ (esRun patience maximize s cs).1, r.2 = false := by
  intro cs
  induction cs with
  | nil => intro s _ _ _ r hr; simp [esRun] at hr
  | cons c rest ih =>
    intro s hes hbest hpw r hr
    obtain ⟨sc, st⟩ := c
    have hnb : checkTrigger maximize s sc = true := by
      rcases hbest with h | ⟨v, hv, hall⟩
      · simp [checkTrigger, h]
      · have hb := hall (sc, st) (by simp)
        simp only [checkTrigger, hv]
        simpa [better] using hb
    have hstop : decide (st - st > patience) = false := by
      simp only [sub_self, decide_eq_false_iff_not, not_lt]
      omega
    have hstep : esCheck patience maximize s sc st
        = ((true, false), ⟨some sc, some st, false⟩) := by
      simp [esCheck, hnb, hes, hstop]
      omega
    rw [esRun, hstep] at hr
    simp only [List.mem_cons] at hr
    rcases hr with rfl | hr
    · rfl
    · rw [List.pairwise_cons] at hpw
      exact ih ⟨some sc, some st, false⟩ rfl
        (Or.inr ⟨sc, rfl, fun c' hc' => hpw.1 c' hc'⟩) hpw.2 r hr

theorem esRun_flat_formula (patience : Int) (maximize : Bool) (v b : Int) :
    ∀ (m : Nat) (t : Int) (e : Bool) (w : Nat → Int),
      (∀ j < m, better maximize (w j) v = false) →
      ∀ j, j < m →
        ((esRun patience maximize ⟨some v, some b, e⟩ (flatChecks w t m)).1).get? j
          = some (false, e || decide (t + j - b > patience)) := by
  intro m
  induction m with
  | zero => intro t e w _ j hj; exact absurd hj (by omega)
  | succ m ih =>
    intro t e w hw j hj
    have hnb : checkTrigger maximize ⟨some v, some b, e⟩ (w 0) = false := by
      have hb := hw 0 (by omega)
      simp only [checkTrigger]
      simpa [better] using hb
    have hstep : esCheck patience maximize ⟨some v, some b, e⟩ (w 0) t
        = ((false, e || decide (t - b > patience)),
           ⟨some v, some b, e || decide (t - b > patience)⟩) := by
      simp [esCheck, hnb]
    cases j with
    | zero =>
      rw [flatChecks, esRun, hstep]
      simp
    | succ j' =>
      have hrest := ih (t + 1) (e || decide (t - b > patience)) (fun j => w (j + 1))
        (fun j hj' => hw (j + 1) (by omega)) j' (by omega)
      rw [flatChecks, esRun, hstep]
      simp only [List.get?_cons_succ]
      rw [hrest]
      have hb : ((e || decide (t - b > patience)) || decide (t + 1 + (j' : Int) - b > patience))
          = (e || decide (t + ((j' + 1 : Nat) : Int) - b > patience)) := by
        have hcast : ((j' + 1 : Nat) : Int) = (j' : Int) + 1 := by push_cast; ring
        rw [hcast, Bool.or_assoc]
        by_cases h1 : t - b > patience
        · have hj0 : (0 : Int) ≤ (j' : Int) := Int.ofNat_nonneg j'
          have h2 : t + 1 + (j' : Int) - b > patience := by omega
          have h3 : t + ((j' : Int) + 1) - b > patience := by omega
          simp [h1, h2, h3]
        · have h5 : (t + 1 + (j' : Int) - b > patience) ↔ (t + ((j' : Int) + 1) - b > patience) := by
            omega
          simp [h1, decide_eq_decide.mpr h5]
      rw [hb]

/-- C3: for a finite patience `≥ 0`, (i) on any strictly-improving metric
sequence (each checked value strictly better, per the maximize flag, than
all previous ones) `check` never returns `should_stop = True`; (ii) once the
best value `v` was recorded at step `best_step` and no later value improves
on it, with `check` called at every subsequent step, the `j`-th subsequent
check (at step `best_step + 1 + j`) returns `should_stop = (j + 1 >
patience)` — first true exactly at step `best_step + patience + 1` and true
for every later check of the stage. -/
theorem earlystop_monotone_and_patience_window (patience : Int) (maximize : Bool)
    (hp : 0 ≤ patience) :
    (∀ cs : List (Int × Int),
      List.Pairwise (fun a b => better maximize b.1 a.1 = true) cs →
      ∀ r ∈ (esRun patience maximize esReset cs).1, r.2 = false) ∧
    (∀ (v b : Int) (m : Nat) (w : Nat → Int),
      (∀ j < m, better maximize (w j) v = false) →
      ∀ j, j < m →
        ((esRun patience maximize ⟨some v, some b, false⟩ (flatChecks w (b + 1) m)).1).get? j
          = some (false, decide ((j : Int) + 1 > patience))) := by
  constructor
  · intro cs hpw r hr
    exact esRun_improving_no_stop patience hp maximize cs esReset rfl (Or.inl rfl) hpw r hr
  · intro v b m w hw j hj
    have h := esRun_flat_formula patience maximize v b m (b + 1) false w hw j hj
    rw [h, Bool.false_or]
    have h5 : (b + 1 + (j : Int) - b > patience) ↔ ((j : Int) + 1 > patience) := by omega
    rw [decide_eq_decide.mpr h5]

/-- Witness for C3 with `patience = 1`, `maximize = true`: a two-element
strictly increasing sequence never stops, and after a best of 5 at step 0
followed by three flat checks, the check at index 2 (step 3 = 0 + 1 + 1 + 1)
reports `should_stop = true`. -/
theorem earlystop_monotone_and_patience_window_witness :
    (0 : Int) ≤ 1 ∧
    (∀ r ∈ (esRun 1 true esReset [(1, 0), (2, 1)]).1, r.2 = false) ∧
    ((esRun 1 true ⟨some 5, some 0, false⟩ (flatChecks (fun _ => 5) (0 + 1) 3)).1).get? 2
      = some (false, decide ((2 : Nat) + 1 > (1 : Int))) := by
  have h := earlystop_monotone_and_patience_window 1 true (by decide)
  exact ⟨by decide,
    fun r hr => h.1 [(1, 0), (2, 1)] (by decide) r hr,
    h.2 5 0 3 (fun _ => 5) (fun j _ => rfl) 2 (by decide)⟩

/-! ### Helper lemmas for the stage runner -/

theorem esCheck_stop_eq (p : Int) (maxi : Bool) (s : EarlyStopState) (sc st : Int) :
    (esCheck p maxi s sc st).1.2
      = (s.early_stopped ||
          decide (st - ((if checkTrigger maxi s sc then some st else s.best_step).getD 0) > p)) := by
  simp only [esCheck]
  split <;> rfl

theorem esCheck_state_best_step (p : Int) (maxi : Bool) (s : EarlyStopState) (sc st : Int) :
    (esCheck p maxi s sc st).2.best_step
      = if checkTrigger maxi s sc then some st else s.best_step := by
  simp only [esCheck]
  split <;> rfl

theorem esCheck_state_early (p : Int) (maxi : Bool) (s : EarlyStopState) (sc st : Int) :
    (esCheck p maxi s sc st).2.early_stopped = (esCheck p maxi s sc st).1.2 := rfl

theorem runStageLoop_max_steps (C : StageConfig) (U : StageUpdater)
    (hdo : C.do_train = true)
    (hpat : (C.max_steps : Int) ≤ C.patience)
    (hexp : ∀ t < C.max_steps, U.n_experiences t < C.max_experiences)
    (hthr : ∀ t < C.max_steps,
      (if C.maximize_sc then decide (U.val t > C.threshold)
       else decide (U.val t < C.threshold)) = false) :
    ∀ n t es, C.max_steps - t = n → t ≤ C.max_steps →
      es.early_stopped = false → 0 ≤ es.best_step.getD 0 →
      runStageLoop C U t es false = ⟨.maxSteps, C.max_steps, false⟩ := by
  intro n
  induction n with
  | zero =>
    intro t es hn ht _ _
    have heq : C.max_steps ≤ t := by omega
    rw [runStageLoop, if_pos heq]
    have ht' : t = C.max_steps := by omega
    rw [ht']
  | succ n ih =>
    intro t es hn ht hes hbs
    have htlt : t < C.max_steps := by omega
    have hexp' := hexp t htlt
    rw [runStageLoop, if_neg (by omega), if_neg (by omega)]
    dsimp only
    have hstop : (esCheck C.patience C.maximize_sc es (U.val t) (t : Int)).1.2 = false := by
      rw [esCheck_stop_eq, hes, Bool.false_or, decide_eq_false_iff_not, not_lt]
      split
      · simp only [Option.getD_some]
        omega
      · omega
    have hearly : (esCheck C.patience C.maximize_sc es (U.val t) (t : Int)).2.early_stopped
        = false := by
      rw [esCheck_state_early, hstop]
    have hbs' : 0 ≤ ((esCheck C.patience C.maximize_sc es (U.val t) (t : Int)).2.best_step).getD 0 := by
      rw [esCheck_state_best_step]
      split
      · simp only [Option.getD_some]
        omega
      · exact hbs
    by_cases hev : (t % C.eval_step == 0 || t % C.display_step == 0) = true
    · rw [if_pos hev, hstop]
      rw [if_neg Bool.false_ne_true, hthr t htlt]
      rw [if_neg Bool.false_ne_true, if_pos hdo]
      exact ih (t + 1) _ (by omega) (by omega) hearly hbs'
    · rw [if_neg hev, if_pos hdo]
      exact ih (t + 1) es (by omega) (by omega) hes hbs

/-- C5: if no evaluation metric before step `max_steps` crosses the
threshold (and no other stopping condition can fire first: training is on,
the experience budget is not hit before `max_steps`, and the patience window
is at least `max_steps`), then the stage exits with the max-steps reason at
exactly step `max_steps` and the threshold check never fires — the
step-count condition is tested at the top of each iteration, before the
evaluation and threshold logic. -/
theorem stage_max_steps_priority (C : StageConfig) (U : StageUpdater)
    (hdo : C.do_train = true)
    (hpat : (C.max_steps : Int) ≤ C.patience)
    (hexp : ∀ t < C.max_steps, U.n_experiences t < C.max_experiences)
    (hthr : ∀ t < C.max_steps,
      (if C.maximize_sc then decide (U.val t > C.threshold)
       else decide (U.val t < C.threshold)) = false) :
    runStage C U = ⟨.maxSteps, C.max_steps, false⟩ :=
  runStageLoop_max_steps C U hdo hpat hexp hthr C.max_steps 0 esReset
    (by omega) (by omega) rfl (by simp [esReset])

/-- Witness for C5: the scenario stage stops with the max-steps reason at
step 5 with the threshold never reached. -/
theorem stage_max_steps_priority_witness :
    (c5Cfg.do_train = true ∧ ((c5Cfg.max_steps : Int) ≤ c5Cfg.patience) ∧
      (∀ t < c5Cfg.max_steps, c5Upd.n_experiences t < c5Cfg.max_experiences) ∧
      (∀ t < c5Cfg.max_steps,
        (if c5Cfg.maximize_sc then decide (c5Upd.val t > c5Cfg.threshold)
         else decide (c5Upd.val t < c5Cfg.threshold)) = false)) ∧
    runStage c5Cfg c5Upd = ⟨.maxSteps, 5, false⟩ :=
  ⟨⟨rfl, by decide, by decide, by decide⟩,
    stage_max_steps_priority c5Cfg c5Upd rfl (by decide) (by decide) (by decide)⟩

/-! ### Helper lemmas for the parallel session -/

theorem sessWf_init (n_retries : Nat) (allOps : List Nat) :
    SessWf n_retries allOps (sessInit allOps) := by
  constructor
  · intro j; simp [sessInit]
  · intro j hj; exact ⟨rfl, rfl, hj⟩

theorem sessWf_doStep (env : Nat → Nat → Bool) (np R : Nat) (allOps : List Nat)
    (s : SessState) (h : SessWf R allOps s) :
    SessWf R allOps (doStep env np R allOps s) := by
  obtain ⟨h1, h2⟩ := h
  constructor
  · intro j
    show stepDead env np R allOps s j = true ↔ stepFailures env np allOps s j > R
    by_cases hd : s.dead_jobs j = true
    · have hnotin : j ∉ stepIndices np s := by
        intro hin
        have hf := (h2 j (List.mem_of_mem_take hin)).1
        rw [hf] at hd
        exact Bool.false_ne_true hd
      have hnf : stepFailures env np allOps s j = s.n_failures j := by
        rw [stepFailures, if_neg]
        intro hc
        exact hnotin hc.1
      rw [hnf]
      simp only [stepDead, hd, Bool.true_or, true_iff]
      exact (h1 j).mp hd
    · have hd' : s.dead_jobs j = false := Bool.not_eq_true _ ▸ Bool.of_not_eq_true hd
      have hnfs : ¬ s.n_failures j > R := fun hc => hd ((h1 j).mpr hc)
      by_cases hin : j ∈ stepIndices np s ∧ j ∈ stepIncomplete env np allOps s
      · have hnf : stepFailures env np allOps s j = s.n_failures j + 1 :=
          if_pos hin
        simp only [stepDead, hd', Bool.false_or, Bool.and_eq_true, decide_eq_true_eq]
        exact ⟨fun h => h.2, fun h => ⟨⟨hin.1, hin.2⟩, h⟩⟩
      · have hnf : stepFailures env np allOps s j = s.n_failures j :=
          if_neg hin

        rw [hnf]
        simp only [stepDead, hd', Bool.false_or, Bool.and_eq_true, decide_eq_true_eq]
        constructor
        · rintro ⟨⟨hi1, hi2⟩, h3⟩
          rw [hnf] at h3
          exact h3
        · intro hc
          exact absurd hc hnfs
  · intro j hj
    have hj' : j ∈ (stepIncomplete env np allOps s).filter
        (fun j => !stepDead env np R allOps s j) := hj
    rw [List.mem_filter] at hj'
    obtain ⟨hinc, hdead⟩ := hj'
    have hdead' : stepDead env np R allOps s j = false := by
      cases hb : stepDead env np R allOps s j
      · rfl
      · rw [hb] at hdead; exact absurd hdead (by decide)
    have hmem : j ∈ allOps ∧ stepCompleted env np s j = false := by
      rw [stepIncomplete, List.mem_filter] at hinc
      refine ⟨hinc.1, ?_⟩
      cases hb : stepCompleted env np s j
      · rfl
      · rw [hb] at hinc; exact absurd hinc.2 (by decide)
    exact ⟨hdead', hmem.2, hmem.1⟩

theorem sessStates_wf (env : Nat → Nat → Bool) (np R : Nat) (allOps : List Nat) :
    ∀ fuel, SessWf R allOps (sessStates env np R allOps fuel) := by
  intro fuel
  induction fuel with
  | zero => exact sessWf_init R allOps
  | succ fuel ih =>
    show SessWf R allOps (sessStates env np R allOps (fuel + 1))
    rw [sessStates]
    by_cases hrem : (sessStates env np R allOps fuel).remaining.isEmpty
    · rw [if_pos hrem]; exact ih
    · rw [if_neg hrem]; exact sessWf_doStep env np R allOps _ ih

theorem stepDead_mono (env : Nat → Nat → Bool) (np R : Nat) (allOps : List Nat)
    (s : SessState) (j : Nat) (h : s.dead_jobs j = true) :
    (doStep env np R allOps s).dead_jobs j = true := by
  show stepDead env np R allOps s j = true
  rw [stepDead, h, Bool.true_or]

theorem dead_not_in_indices (np R : Nat) (allOps : List Nat) (s : SessState) (j : Nat)
    (hwf : SessWf R allOps s) (h : s.dead_jobs j = true) :
    j ∉ stepIndices np s := by
  intro hin
  have hf := (hwf.2 j (List.mem_of_mem_take hin)).1
  rw [hf] at h
  exact Bool.false_ne_true h

theorem sessLoop_dead_not_scheduled (env : Nat → Nat → Bool) (np R : Nat)
    (allOps : List Nat) (j : Nat) :
    ∀ (fuel : Nat) (s : SessState) (i : Nat) (sF : SessState) (evs : List Event),
      SessWf R allOps s → s.dead_jobs j = true →
      sessLoop env np R allOps fuel s i = some (sF, evs) →
      ∀ k idx, Event.step k idx ∈ evs → j ∉ idx := by
  intro fuel
  induction fuel with
  | zero =>
    intro s i sF evs hwf hdead hloop k idx hmem
    rw [sessLoop] at hloop
    by_cases hrem : s.remaining.isEmpty
    · rw [if_pos hrem] at hloop
      have hevs : evs = [] := by
        injection hloop with h'
        injection h' with h1 h2
        exact h2.symm
      rw [hevs] at hmem
      exact absurd hmem (by simp)
    · rw [if_neg hrem] at hloop
      exact Option.noConfusion hloop
  | succ fuel ih =>
    intro s i sF evs hwf hdead hloop k idx hmem
    rw [sessLoop] at hloop
    by_cases hrem : s.remaining.isEmpty
    · rw [if_pos hrem] at hloop
      have hevs : evs = [] := by
        injection hloop with h'
        injection h' with h1 h2
        exact h2.symm
      rw [hevs] at hmem
      exact absurd hmem (by simp)
    · rw [if_neg hrem] at hloop
      cases hrec : sessLoop env np R allOps fuel (doStep env np R allOps s) (i + 1) with
      | none =>
        rw [hrec] at hloop
        exact Option.noConfusion hloop
      | some p =>
        obtain ⟨sF', evs'⟩ := p
        rw [hrec] at hloop
        have hevs : evs
            = Event.step i (s.remaining.take np) :: Event.checkpointMerge i :: evs' := by
          injection hloop with h'
          injection h' with h1 h2
          exact h2.symm
        rw [hevs] at hmem
        rcases List.mem_cons.mp hmem with heq | hmem2
        · injection heq with hk hidx
          subst hidx
          exact fun hjin => dead_not_in_indices np R allOps s j hwf hdead hjin
        · rcases List.mem_cons.mp hmem2 with heq2 | hmem3
          · exact absurd heq2 (by simp)
          · exact ih _ (i + 1) sF' evs' (sessWf_doStep env np R allOps s hwf)
              (stepDead_mono env np R allOps s j hdead) hrec k idx hmem3

theorem retryInv_init (R : Nat) (allOps : List Nat) (j : Nat) :
    RetryInv R j (sessInit allOps) := by
  left
  exact ⟨rfl, Nat.zero_le _, rfl⟩

theorem retryInv_doStep (env : Nat → Nat → Bool) (np R : Nat) (allOps : List Nat)
    (s : SessState) (j : Nat)
    (henv1 : ∀ a < R, env j a = false) (henv2 : env j R = true)
    (hwf : SessWf R allOps s) (h : RetryInv R j s) :
    RetryInv R j (doStep env np R allOps s) := by
  by_cases hin : j ∈ stepIndices np s
  · have hrem : j ∈ s.remaining := List.mem_of_mem_take hin
    have hcomp : s.completed j = false := (hwf.2 j hrem).2.1
    have hops : j ∈ allOps := (hwf.2 j hrem).2.2
    rcases h with ⟨_, hat, hnf⟩ | ⟨hc, _⟩
    · rcases Nat.lt_or_ge (s.attempts j) R with hlt | hge
      · -- the attempt fails again
        have henv : env j (s.attempts j) = false := henv1 _ hlt
        have hcomp' : stepCompleted env np s j = false := by
          rw [stepCompleted, hcomp, henv, Bool.false_or, Bool.and_false]
        have hincj : j ∈ stepIncomplete env np allOps s := by
          rw [stepIncomplete, List.mem_filter, hcomp']
          exact ⟨hops, rfl⟩
        left
        refine ⟨hcomp', ?_, ?_⟩
        · show (if j ∈ stepIndices np s then s.attempts j + 1 else s.attempts j) ≤ R
          rw [if_pos hin]
          omega
        · show stepFailures env np allOps s j
            = (if j ∈ stepIndices np s then s.attempts j + 1 else s.attempts j)
          rw [stepFailures, if_pos ⟨hin, hincj⟩, if_pos hin, hnf]
      · -- attempts = R: this attempt succeeds
        have hat' : s.attempts j = R := by omega
        have hcomp' : stepCompleted env np s j = true := by
          rw [stepCompleted, hcomp, hat', henv2, Bool.false_or]
          simp [hin]
        have hincj : j ∉ stepIncomplete env np allOps s := by
          rw [stepIncomplete, List.mem_filter, hcomp']
          simp
        right
        refine ⟨hcomp', ?_⟩
        show stepFailures env np allOps s j ≤ R
        rw [stepFailures, if_neg (fun hc => hincj hc.2), hnf, hat']
    · rw [hc] at hcomp
      exact absurd hcomp (by decide)
  · -- j does not run in this step: all of its bookkeeping is unchanged
    have hcomp' : stepCompleted env np s j = s.completed j := by
      rw [stepCompleted]
      simp [hin]
    have hnf' : stepFailures env np allOps s j = s.n_failures j := by
      rw [stepFailures, if_neg (fun hc => hin hc.1)]
    have hat' : (if j ∈ stepIndices np s then s.attempts j + 1 else s.attempts j)
        = s.attempts j := if_neg hin
    rcases h with ⟨h1, h2, h3⟩ | ⟨h1, h2⟩
    · left
      refine ⟨?_, ?_, ?_⟩
      · show stepCompleted env np s j = false
        rw [hcomp', h1]
      · show (if j ∈ stepIndices np s then s.attempts j + 1 else s.attempts j) ≤ R
        rw [hat']; exact h2
      · show stepFailures env np allOps s j
          = (if j ∈ stepIndices np s then s.attempts j + 1 else s.attempts j)
        rw [hnf', hat', h3]
    · right
      refine ⟨?_, ?_⟩
      · show stepCompleted env np s j = true
        rw [hcomp', h1]
      · show stepFailures env np allOps s j ≤ R
        rw [hnf']; exact h2

theorem sessStates_retryInv (env : Nat → Nat → Bool) (np R : Nat) (allOps : List Nat)
    (j : Nat) (henv1 : ∀ a < R, env j a = false) (henv2 : env j R = true) :
    ∀ fuel, RetryInv R j (sessStates env np R allOps fuel) := by
  intro fuel
  induction fuel with
  | zero => exact retryInv_init R allOps j
  | succ fuel ih =>
    show RetryInv R j (sessStates env np R allOps (fuel + 1))
    rw [sessStates]
    by_cases hrem : (sessStates env np R allOps fuel).remaining.isEmpty
    · rw [if_pos hrem]; exact ih
    · rw [if_neg hrem]
      exact retryInv_doStep env np R allOps _ j henv1 henv2
        (sessStates_wf env np R allOps fuel) ih

/-- C2: retry/dead-job accounting of `ParallelSession.run`.  (i) At every
point of the run an operation index is in the dead set exactly when its
failure counter exceeds `n_retries` — so it enters the dead set on the
`(n_retries + 1)`-th failed scheduled attempt; (ii) once dead at any point,
it appears in no step partition of any continuation of the run; (iii) an
operation that fails its first `n_retries` attempts and completes on the
next attempt is never in the dead set. -/
theorem session_retry_dead_accounting (env : Nat → Nat → Bool)
    (n_procs n_retries : Nat) (allOps : List Nat) :
    (∀ fuel j,
      (sessStates env n_procs n_retries allOps fuel).dead_jobs j = true
        ↔ (sessStates env n_procs n_retries allOps fuel).n_failures j > n_retries) ∧
    (∀ fuel fuel' i j sF evs,
      (sessStates env n_procs n_retries allOps fuel).dead_jobs j = true →
      sessLoop env n_procs n_retries allOps fuel'
        (sessStates env n_procs n_retries allOps fuel) i = some (sF, evs) →
      ∀ k idx, Event.step k idx ∈ evs → j ∉ idx) ∧
    (∀ j, (∀ a < n_retries, env j a = false) → env j n_retries = true →
      ∀ fuel, (sessStates env n_procs n_retries allOps fuel).dead_jobs j = false) := by
  refine ⟨?_, ?_, ?_⟩
  · intro fuel j
    exact (sessStates_wf env n_procs n_retries allOps fuel).1 j
  · intro fuel fuel' i j sF evs hdead hloop
    exact sessLoop_dead_not_scheduled env n_procs n_retries allOps j fuel' _ i sF evs
      (sessStates_wf env n_procs n_retries allOps fuel) hdead hloop
  · intro j henv1 henv2 fuel
    have hinv := sessStates_retryInv env n_procs n_retries allOps j henv1 henv2 fuel
    have hwf := sessStates_wf env n_procs n_retries allOps fuel
    have hnf : (sessStates env n_procs n_retries allOps fuel).n_failures j ≤ n_retries := by
      rcases hinv with ⟨_, h2, h3⟩ | ⟨_, h2⟩
      · omega
      · exact h2
    cases hb : (sessStates env n_procs n_retries allOps fuel).dead_jobs j
    · rfl
    · have := (hwf.1 j).mp hb
      omega

/-- Witness for C2 with `n_retries = 1`, two operations and two processors:
after two steps operation 0 is dead (its failure counter is 2 > 1), dead
operations appear in no later step partition, and operation 1 — which
failed once then completed — is not dead. -/
theorem session_retry_dead_accounting_witness :
    ((sessStates c2Env 2 1 [0, 1] 2).dead_jobs 0 = true
      ↔ (sessStates c2Env 2 1 [0, 1] 2).n_failures 0 > 1) ∧
    ((∀ a < 1, c2Env 1 a = false) ∧ c2Env 1 1 = true ∧
      (sessStates c2Env 2 1 [0, 1] 2).dead_jobs 1 = false) ∧
    (sessStates c2Env 2 1 [0, 1] 2).dead_jobs 0 = true ∧
    (sessStates c2Env 2 1 [0, 1] 2).n_failures 0 = 2 := by
  have h := session_retry_dead_accounting c2Env 2 1 [0, 1]
  refine ⟨h.1 2 0, ⟨?_, rfl, h.2.2 1 ?_ rfl 2⟩, rfl, rfl⟩
  · intro a ha
    interval_cases a
    rfl
  · intro a ha
    interval_cases a
    rfl

theorem sessLoop_trace_shape (env : Nat → Nat → Bool) (np R : Nat) (allOps : List Nat) :
    ∀ (fuel : Nat) (s : SessState) (i : Nat) (sF : SessState) (evs : List Event),
      sessLoop env np R allOps fuel s i = some (sF, evs) →
      ∃ (k : Nat) (f : Nat → List Nat),
        evs = (List.range' i k).flatMap
          fun m => [Event.step m (f m), Event.checkpointMerge m] := by
  intro fuel
  induction fuel with
  | zero =>
    intro s i sF evs hloop
    rw [sessLoop] at hloop
    by_cases hrem : s.remaining.isEmpty
    · rw [if_pos hrem] at hloop
      have hevs : evs = [] := by
        injection hloop with h'
        injection h' with h1 h2
        exact h2.symm
      exact ⟨0, fun _ => [], by simp [hevs]⟩
    · rw [if_neg hrem] at hloop
      exact Option.noConfusion hloop
  | succ fuel ih =>
    intro s i sF evs hloop
    rw [sessLoop] at hloop
    by_cases hrem : s.remaining.isEmpty
    · rw [if_pos hrem] at hloop
      have hevs : evs = [] := by
        injection hloop with h'
        injection h' with h1 h2
        exact h2.symm
      exact ⟨0, fun _ => [], by simp [hevs]⟩
    · rw [if_neg hrem] at hloop
      cases hrec : sessLoop env np R allOps fuel (doStep env np R allOps s) (i + 1) with
      | none =>
        rw [hrec] at hloop
        exact Option.noConfusion hloop
      | some p =>
        obtain ⟨sF', evs'⟩ := p
        rw [hrec] at hloop
        have hevs : evs
            = Event.step i (s.remaining.take np) :: Event.checkpointMerge i :: evs' := by
          injection hloop with h'
          injection h' with h1 h2
          exact h2.symm
        obtain ⟨k, f, hf⟩ := ih _ (i + 1) sF' evs' hrec
        refine ⟨k + 1, fun m => if m = i then s.remaining.take np else f m, ?_⟩
        have hne : ∀ m ∈ List.range' (i + 1) k, m ≠ i := by
          intro m hm
          rw [List.mem_range'] at hm
          omega
        have hcong : ∀ (l : List Nat), (∀ m ∈ l, m ≠ i) →
            (l.flatMap fun m =>
              [Event.step m (if m = i then s.remaining.take np else f m),
               Event.checkpointMerge m])
            = l.flatMap fun m => [Event.step m (f m), Event.checkpointMerge m] := by
          intro l hl
          induction l with
          | nil => rfl
          | cons a l ihl =>
            simp only [List.flatMap_cons, if_neg (hl a (by simp)),
              ihl fun m hm => hl m (by simp [hm])]
        have hii : (if i = i then List.take np s.remaining else f i)
            = List.take np s.remaining := if_pos rfl
        rw [hevs, hf, List.range'_succ, List.flatMap_cons]
        simp only [hii, hcong (List.range' (i + 1) k) hne]
        rfl

/-- C1 (amended): in every completed `ParallelSession.run`, the trace is a
sequence of step/checkpoint pairs — after every step `k` the checkpoint
phase fetches the hosts' partial results and merges them (a union, under
which completion is monotone across steps) into the cumulative results
archive — followed by exactly one backing-up of the input archive and one
overwrite of the input archive with the merged results, after the loop has
finished rather than after each step. -/
theorem session_checkpoint_merge_backup_once (env : Nat → Nat → Bool)
    (np R : Nat) (allOps : List Nat) (fuel : Nat) (tr : List Event)
    (h : sessTrace env np R allOps fuel = some tr) :
    (∃ (k : Nat) (f : Nat → List Nat),
      tr = ((List.range' 0 k).flatMap
          fun m => [Event.step m (f m), Event.checkpointMerge m])
        ++ [Event.mkBackup, Event.overwriteInput]) ∧
    (∀ n j, (sessStates env np R allOps n).completed j = true →
      (sessStates env np R allOps (n + 1)).completed j = true) := by
  constructor
  · rw [sessTrace, sessRun] at h
    cases hR : sessLoop env np R allOps fuel (sessInit allOps) 0 with
    | none => rw [hR] at h; exact Option.noConfusion h
    | some p =>
      obtain ⟨sE, evs⟩ := p
      rw [hR] at h
      have htr : tr = evs ++ [Event.mkBackup, Event.overwriteInput] := by
        injection h with h'
        exact h'.symm
      obtain ⟨k, f, hf⟩ := sessLoop_trace_shape env np R allOps fuel _ 0 sE evs hR
      exact ⟨k, f, by rw [htr, hf]⟩
  · intro n j hc
    rw [sessStates]
    by_cases hrem : (sessStates env np R allOps n).remaining.isEmpty
    · rw [if_pos hrem]; exact hc
    · rw [if_neg hrem]
      show stepCompleted env np (sessStates env np R allOps n) j = true
      rw [stepCompleted, hc, Bool.true_or]

/-- C1 counterexample: in the concrete two-step run both the step-0 and the
step-1 events occur, yet no overwrite of the input archive happens between
checkpoint 0 and step 1 — the merged result is copied over the input archive
only once, after the loop — so the claimed per-step overwrite durability
fails. -/
theorem session_per_step_backup_counterexample :
    sessTrace c1Env 1 1 [0] 3 = some
      [Event.step 0 [0], Event.checkpointMerge 0, Event.step 1 [0],
       Event.checkpointMerge 1, Event.mkBackup, Event.overwriteInput] ∧
    ¬ DurablePerStep
      [Event.step 0 [0], Event.checkpointMerge 0, Event.step 1 [0],
       Event.checkpointMerge 1, Event.mkBackup, Event.overwriteInput] := by
  refine ⟨rfl, fun h => ?_⟩
  obtain ⟨p, hp1, hp2, _⟩ := h 0 1 2 [0] rfl rfl
  omega

/-- Witness for C1 (amended) on the concrete two-step run. -/
theorem session_checkpoint_merge_backup_once_witness :
    (sessTrace c1Env 1 1 [0] 3 = some
      [Event.step 0 [0], Event.checkpointMerge 0, Event.step 1 [0],
       Event.checkpointMerge 1, Event.mkBackup, Event.overwriteInput]) ∧
    ((∃ (k : Nat) (f : Nat → List Nat),
      [Event.step 0 [0], Event.checkpointMerge 0, Event.step 1 [0],
       Event.checkpointMerge 1, Event.mkBackup, Event.overwriteInput]
        = ((List.range' 0 k).flatMap
            fun m => [Event.step m (f m), Event.checkpointMerge m])
          ++ [Event.mkBackup, Event.overwriteInput]) ∧
    (∀ n j, (sessStates c1Env 1 1 [0] n).completed j = true →
      (sessStates c1Env 1 1 [0] (n + 1)).completed j = true)) :=
  ⟨rfl, session_checkpoint_merge_backup_once c1Env 1 1 [0] 3 _ rfl⟩

end DPS
